import Mathlib

/-!
Verification development for the digipres metadata-conversion pipeline
(`src/convert.py`, `src/convert_metadata.py`).

Strings are modelled as `List Char` (ASCII approximation of Python `str`:
Python's `str.strip`, `\d`, `\w`, `str.isdigit` also accept some non-ASCII
characters; no claim here depends on non-ASCII input).  Records are the
six-column rows of `metadata1.csv` / `metadata.csv`.  Each definition is a
direct translation of the correspondingly named Python function; doc comments
cite the source location.
-/

namespace DP

/-- Python whitespace characters recognised by `str.strip()` / `str.split()`
(ASCII subset). -/
def pyIsSpace (c : Char) : Bool :=
  c = ' ' || c = '\t' || c = '\n' || c = '\r' || c = '\x0b' || c = '\x0c'

/-- Python `s.strip()`: drop leading and trailing whitespace. -/
def strip (s : List Char) : List Char :=
  ((s.dropWhile pyIsSpace).reverse.dropWhile pyIsSpace).reverse

/-- The character class `[A-Za-z0-9]` of the description regex. -/
def isAlnumChar (c : Char) : Bool :=
  ('A' ≤ c && c ≤ 'Z') || ('a' ≤ c && c ≤ 'z') || ('0' ≤ c && c ≤ '9')

/-- Regex word character `\w` (ASCII subset), used for the `\b` boundary. -/
def isWordChar (c : Char) : Bool :=
  isAlnumChar c || c = '_'

/-- The part of `s` after the last `'/'` (all of `s` if there is none).
This is both POSIX `os.path.basename` and `s.rsplit('/', 1)[-1]`. -/
def afterLastSlash (s : List Char) : List Char :=
  (s.reverse.takeWhile (fun c => !(c = '/'))).reverse

/-- `basename_from_path` from `src/convert.py` lines 372-375 and
`src/convert_metadata.py` lines 29-32. -/
def basename_from_path (path : List Char) : List Char :=
  if path.isEmpty then [] else afterLastSlash path

/-- One row of `metadata1.csv` / `metadata.csv` (header
`filename, dc.title, dc.date, dc.format, dc.format2, dc.description`). -/
structure Row where
  filename : List Char
  title : List Char
  date : List Char
  format : List Char
  format2 : List Char
  description : List Char
deriving DecidableEq, Repr, Inhabited

/-- `fn.startswith("objects/")`, the folder-marker test of
`src/convert.py` line 430 / `src/convert_metadata.py` line 113. -/
def isMarker (r : Row) : Bool :=
  "objects/".data.isPrefixOf r.filename

/-- The match of `re.match(r'^(Item is a )([A-Za-z0-9]+)( file\b.*)$', desc)`
(`src/convert.py` line 380, `src/convert_metadata.py` line 42).
Returns `(group 2, group 3)` on success.  Group 2 is the maximal nonempty
alphanumeric run after the literal prefix (shortening it cannot help the
backtracker, because group 3 must begin with a space).  Group 3 is
`" file"` followed by the rest of the match: `\b` needs `"file"` to be
followed by a non-word character or the end, and `.*$` requires the
remainder to contain no newline, except that `$` may also match just
before one final newline (in which case that newline is outside the
match, so it is absent from group 3). -/
def descrCore (rest0 : List Char) : Option (List Char × List Char) :=
  let ext := rest0.takeWhile isAlnumChar
  let rest1 := rest0.dropWhile isAlnumChar
  if ext.isEmpty then none
  else if " file".data.isPrefixOf rest1 then
    let t := rest1.drop 5
    let bOk := match t with
      | [] => true
      | c :: _ => !isWordChar c
    if bOk then
      if t.count '\n' = 0 then some (ext, " file".data ++ t)
      else if t.count '\n' = 1 && t.getLast? = some '\n' then
        some (ext, " file".data ++ t.dropLast)
      else none
    else none
  else none

/-- The full match: the anchored literal prefix, then `descrCore` on the
rest of the string. -/
def descrMatch? (desc : List Char) : Option (List Char × List Char) :=
  if "Item is a ".data.isPrefixOf desc then descrCore (desc.drop 10)
  else none

/-- `ensure_description_parens` from `src/convert.py` lines 377-385:
on a match, returns `f-string {group 1}({ext}){tail}`, i.e. wraps the
extension token in parentheses. -/
def ensure_description_parens (desc : List Char) : List Char :=
  if desc.isEmpty then desc
  else
    match descrMatch? desc with
    | some (ext, tail) => "Item is a (".data ++ ext ++ ")".data ++ tail
    | none => desc

/-- `ensure_description_parens` from `src/convert_metadata.py` lines 34-47:
identical match, but the replacement on line 46 is
`f-string {group 1}{ext}{tail}` with NO parentheses around `ext`
(contradicting the docstring on lines 35-38). -/
def ensure_description_parens_cm (desc : List Char) : List Char :=
  if desc.isEmpty then desc
  else
    match descrMatch? desc with
    | some (ext, tail) => "Item is a ".data ++ ext ++ tail
    | none => desc

/-- `YEAR_RE.findall(s)` for `YEAR_RE = re.compile(r'(19\d{2}|20\d{2})')`
(`src/convert.py` line 370, `src/convert_metadata.py` line 27), with the
matched years converted by `int` as in `extract_years_from_strings`:
non-overlapping left-to-right scan; at each position try `19\d\d` or
`20\d\d` (the alternatives are mutually exclusive), on success consume
four characters, otherwise advance one. -/
def findYearsAux : Nat → List Char → List Nat
  | 0, _ => []
  | _ + 1, [] => []
  | fuel + 1, c1 :: rest =>
    match rest with
    | c2 :: c3 :: c4 :: tail =>
      if ((c1 = '1' && c2 = '9') || (c1 = '2' && c2 = '0')) && c3.isDigit && c4.isDigit then
        (1000 * (c1.toNat - '0'.toNat) + 100 * (c2.toNat - '0'.toNat) +
          10 * (c3.toNat - '0'.toNat) + (c4.toNat - '0'.toNat)) :: findYearsAux fuel tail
      else findYearsAux fuel rest
    | _ => []

/-- The scan above, with enough fuel (each step consumes at least one
character, so `s.length` steps always suffice). -/
def findYears (s : List Char) : List Nat :=
  findYearsAux s.length s

/-- `extract_years_from_strings` from `src/convert.py` lines 387-397 /
`src/convert_metadata.py` lines 49-59 (the `int` conversion of a matched
year never raises, and an empty string yields no matches anyway). -/
def extract_years_from_strings (strings : List (List Char)) : List Nat :=
  (strings.map findYears).flatten

/-- `Counter(vals).most_common(1)[0]` (`src/convert_metadata.py` line 76,
`src/convert.py` line 404): the highest-multiplicity value with its count.
`Counter` preserves first-insertion order and `most_common` sorts stably by
descending count, so ties go to the value whose first occurrence is
earliest — i.e. the first element of `vals` whose multiplicity is maximal. -/
def firstMostCommon (vals : List (List Char)) : List Char × Nat :=
  let maxC := (vals.map (fun v => vals.count v)).foldl max 0
  match vals.find? (fun v => vals.count v == maxC) with
  | some v => (v, maxC)
  | none => ([], 0)

/-- `infer_group_date` from `src/convert_metadata.py` lines 61-89 /
`src/convert.py` lines 399-414.  (`src/convert.py` never imports
`Counter`; the function body is modelled as written, which is also the
complete, importable version in `src/convert_metadata.py`.) -/
def infer_group_date (child_dates : List (List Char)) : List Char :=
  let vals := child_dates.filter (fun d => !(strip d).isEmpty)
  if vals.isEmpty then []
  else
    let mc := firstMostCommon vals
    if 1 < mc.2 then mc.1
    else
      match extract_years_from_strings vals with
      | [] => vals.headD []
      | y :: ys =>
        let min_y := ys.foldl min y
        let max_y := ys.foldl max y
        if min_y = max_y then (Nat.repr min_y).data
        else (Nat.repr min_y).data ++ ('-' :: (Nat.repr max_y).data)

/-- `for idx, r in enumerate(rows): if fn.startswith("objects/"): append idx`
(`src/convert.py` lines 427-431, `src/convert_metadata.py` lines 110-114),
with `i` the index of the first element of the remaining list. -/
def groupIndicesFrom : Nat → List Row → List Nat
  | _, [] => []
  | i, r :: rest =>
    if isMarker r then i :: groupIndicesFrom (i + 1) rest
    else groupIndicesFrom (i + 1) rest

/-- The list `group_indices` of both scripts. -/
def groupIndices (rows : List Row) : List Nat :=
  groupIndicesFrom 0 rows

/-- The stripped child dates read by the loop
`for j in range(start+1, end): child_dates.append((child.get('dc.date') or "").strip())`
(`src/convert.py` lines 438-440, `src/convert_metadata.py` lines 122-125);
`end ≤ len(rows)` always holds at the call sites. -/
def childDates (rows : List Row) (start endIdx : Nat) : List (List Char) :=
  ((rows.drop (start + 1)).take (endIdx - (start + 1))).map (fun c => strip c.date)

/-- The marker-row update of `src/convert.py` lines 442-450 /
`src/convert_metadata.py` lines 129-141: set `dc.title` to the last `/`
segment, set `dc.date` to `inferred` if non-empty, set `dc.format` to
`"1 digital folder"` if blank, set `dc.description` unconditionally. -/
def updateMarker (r : Row) (inferred : List Char) : Row :=
  let last_seg := if r.filename.isEmpty then [] else afterLastSlash r.filename
  let r1 := { r with title := last_seg }
  let r2 := if inferred.isEmpty then r1 else { r1 with date := inferred }
  let r3 := if (strip r2.format).isEmpty then { r2 with format := "1 digital folder".data } else r2
  { r3 with description := "Folder contains files relating to ".data ++ last_seg }

/-- The loop `for i, grp_idx in enumerate(group_indices)` of
`src/convert.py` lines 434-450 / `src/convert_metadata.py` lines 117-141,
threading the in-place mutation of `rows` through `List.set`.
`end` is the next marker index, or `len(rows)` for the last marker
(`List.set` preserves length, so the current length is the original one). -/
def groupPassAux : List Row → List Nat → List Row
  | rows, [] => rows
  | rows, gi :: rest =>
    let endIdx := rest.headD rows.length
    let inferred := infer_group_date (childDates rows gi endIdx)
    let r := (rows[gi]?).getD default
    groupPassAux (rows.set gi (updateMarker r inferred)) rest

/-- The complete marker-synthesis pass (steps 1-4 of spec section 4.2). -/
def groupPass (rows : List Row) : List Row :=
  groupPassAux rows (groupIndices rows)

/-- The per-row data-row normalization of `src/convert.py` lines 453-458:
for `filename.startswith("data/objects/")`, set a blank `dc.title` to the
basename and rewrite `dc.description` with `ensure_description_parens`. -/
def normalizeRow (r : Row) : Row :=
  if "data/objects/".data.isPrefixOf r.filename then
    let r1 := if (strip r.title).isEmpty then { r with title := basename_from_path r.filename } else r
    { r1 with description := ensure_description_parens r1.description }
  else r

/-- The same normalization in `src/convert_metadata.py` lines 144-151,
which calls that file's parenthesis-free `ensure_description_parens`. -/
def normalizeRowCm (r : Row) : Row :=
  if "data/objects/".data.isPrefixOf r.filename then
    let r1 := if (strip r.title).isEmpty then { r with title := basename_from_path r.filename } else r
    { r1 with description := ensure_description_parens_cm r1.description }
  else r

/-- `convert_metadata1_to_metadata` from `src/convert.py` lines 416-472,
viewed as a pure function from the input record sequence to the output
record sequence (the CSV read/write adapters and the missing-file skip are
out of scope; the final writer emits every row once, in order, with the
six standard columns first). -/
def convert_metadata1_to_metadata (rows : List Row) : List Row :=
  (groupPass rows).map normalizeRow

/-- The removal loop of `src/convert_metadata.py` lines 99-107: drop the
first row whose stripped filename equals `"objects"`, keep everything
else. -/
def removeFirstObjects : List Row → List Row
  | [] => []
  | r :: rest =>
    if strip r.filename = "objects".data then rest
    else r :: removeFirstObjects rest

/-- `convert` from `src/convert_metadata.py` lines 91-167 as a pure function
on record sequences: remove the first `"objects"` row, run the marker
pass, then the data-row normalization. -/
def convert (rows : List Row) : List Row :=
  (groupPass (removeFirstObjects rows)).map normalizeRowCm

/-- The first element of `gis` greater than `j`, or `total`.  For the
sorted `group_indices` list this is `group_indices[i+1]` when `j` is the
`i`-th marker index (or `total = len(rows)` for the last marker). -/
def nextAfter (gis : List Nat) (j total : Nat) : Nat :=
  (gis.filter (fun x => j < x)).headD total

/-- `os.path.splitext(b)[0]` for a slash-free `b` (CPython `genericpath`):
split at the last dot, provided some earlier character of `b` is not a
dot (so purely-leading dots never start an extension). -/
def splitextBase (b : List Char) : List Char :=
  let tailLen := (b.reverse.takeWhile (fun c => !(c = '.'))).length
  if tailLen = b.length then b
  else
    let stem := b.take (b.length - tailLen - 1)
    if stem.any (fun c => !(c = '.')) then stem else b

/-- `process_layer_count` from `src/convert.py` lines 80-111.  The numeric
branch (lines 91-97) increments and pluralizes on the pre-increment value.
In the non-numeric branch, the replacement on line 109 for the case of a
present extension AND a present label is the f-string
`"Item is a extension} file relating to {label}"`, which contains a single
unmatched `}` and is therefore a Python SyntaxError: that case has no
defined value, modelled as `none`.  All other cases return `some`. -/
def process_layer_count (layer_count extension title filename : List Char) :
    Option (List Char) :=
  if !layer_count.isEmpty && layer_count.all Char.isDigit then
    let n := layer_count.foldl (fun a c => 10 * a + (c.toNat - '0'.toNat)) 0
    some ("Item is a Photoshop file with ".data ++ (Nat.repr (n + 1)).data ++
      (if 1 < n then " layers.".data else " layer.".data))
  else
    let label :=
      if !(strip title).isEmpty && !((strip title).map Char.toUpper = "NULL".data) then
        strip title
      else if !(strip filename).isEmpty then
        splitextBase (afterLastSlash (strip filename))
      else []
    if !extension.isEmpty then
      if !label.isEmpty then none
      else some ("Item is a (".data ++ extension ++ ") file.".data)
    else
      if !label.isEmpty then some ("Item is a file relating to ".data ++ label)
      else some ("Item is a file.".data)

/-- Python `s.split()`: split on runs of whitespace, no empty tokens.
The accumulator holds the reversed current token. -/
def splitWsAux : List Char → List Char → List (List Char)
  | acc, [] => if acc.isEmpty then [] else [acc.reverse]
  | acc, c :: rest =>
    if pyIsSpace c then
      if acc.isEmpty then splitWsAux [] rest
      else acc.reverse :: splitWsAux [] rest
    else splitWsAux (c :: acc) rest

/-- Python `s.split()` with no arguments. -/
def pySplitWs (s : List Char) : List (List Char) :=
  splitWsAux [] s

/-- Digit run with optional single underscores between digits, as accepted
by Python `int` (PEP 515) — the grammar `digit (underscore? digit)*`,
stated equivalently as: nonempty, first and last characters are digits,
every character is a digit or an underscore, and no two underscores are
adjacent. -/
def undOk (s : List Char) : Bool :=
  !s.isEmpty && (s.headD '0').isDigit && (s.getLastD '0').isDigit &&
    s.all (fun c => c.isDigit || c = '_') &&
    (s.zip s.tail).all (fun p => !(p.1 = '_' && p.2 = '_'))

/-- Python `int(s)` for a string: strip whitespace, optional sign, then
digits with optional single underscores; `none` models a raised
`ValueError`. -/
def pyInt? (s : List Char) : Option Int :=
  let t := strip s
  let val := fun (ds : List Char) =>
    (ds.filter (fun c => !(c = '_'))).foldl (fun a c => 10 * a + (c.toNat - '0'.toNat)) 0
  match t with
  | '+' :: r => if undOk r then some (Int.ofNat (val r)) else none
  | '-' :: r => if undOk r then some (-(Int.ofNat (val r))) else none
  | r => if undOk r then some (Int.ofNat (val r)) else none

/-- The per-row `start_date` / `end_date` computation of `create_rights_csv`
(`src/convert.py` lines 238-252): if `dc.date` is non-empty, `start_date`
is its first whitespace token (`IndexError`, i.e. `none`, when the
non-empty date is all whitespace) and
`end_date = f-string {int(start_date[:4]) + 100}- + start_date[5:]`
(`none` models the `ValueError` of `int`); an empty `dc.date` gives an
empty `start_date` and `end_date`. -/
def rights_dates (date : List Char) : Option (List Char × List Char) :=
  if date.isEmpty then some ([], [])
  else
    match pySplitWs date with
    | [] => none
    | tok :: _ =>
      match pyInt? (tok.take 4) with
      | none => none
      | some y => some (tok, (Int.repr (y + 100)).data ++ ('-' :: tok.drop 5))

/-- Two rows whose trimmed filename is `"objects"`: input on which the
`convert_metadata.py` transform is not idempotent. -/
def exTwoObjects : List Row :=
  [⟨"objects".data, [], [], [], [], []⟩, ⟨"objects".data, [], [], [], [], []⟩]

/-- A small well-formed input: one `objects` header row, one folder marker,
two children with dates, used to witness the amended idempotence claim. -/
def exPipeline : List Row :=
  [⟨"objects".data, [], [], [], [], []⟩,
   ⟨"objects/A".data, [], [], [], [], []⟩,
   ⟨"data/objects/A/1.jpg".data, [], "1999-01-01".data, [], "image/jpeg".data,
     "Item is a jpg file relating to trip".data⟩,
   ⟨"data/objects/A/2.jpg".data, "t2".data, "2005-03-01".data, [], "image/jpeg".data, []⟩]

/-- A marker row and child used to witness the marker-synthesis claims. -/
def exMarker : List Row :=
  [⟨"objects/A".data, "old".data, "d0".data, [], "f2".data, "x".data⟩,
   ⟨"data/objects/A/1.jpg".data, [], "2008-06-20 10:11".data, [], [], []⟩]

/-! ### String-level lemmas -/

theorem takeWhile_app (p : Char → Bool) (xs rest : List Char)
    (h : ∀ x ∈ xs, p x = true) :
    (xs ++ rest).takeWhile p = xs ++ rest.takeWhile p := by
  induction xs with
  | nil => simp
  | cons a as ih =>
    have ha := h a (by simp)
    simp only [List.cons_append, List.takeWhile_cons, ha, if_true]
    rw [ih (fun x hx => h x (by simp [hx]))]

theorem dropWhile_app (p : Char → Bool) (xs rest : List Char)
    (h : ∀ x ∈ xs, p x = true) :
    (xs ++ rest).dropWhile p = rest.dropWhile p := by
  induction xs with
  | nil => simp
  | cons a as ih =>
    have ha := h a (by simp)
    simp only [List.cons_append, List.dropWhile_cons, ha, if_true]
    exact ih (fun x hx => h x (by simp [hx]))

theorem descrMatch?_append (z : List Char) :
    descrMatch? ("Item is a ".data ++ z) = descrCore z := by
  have hpre : ("Item is a ".data).isPrefixOf ("Item is a ".data ++ z) = true := by
    rw [List.isPrefixOf_iff_prefix]; exact List.prefix_append _ _
  have hdrop : ("Item is a ".data ++ z).drop 10 = z := by
    have h10 : ("Item is a ".data).length = 10 := rfl
    rw [← h10, List.drop_left]
  rw [descrMatch?, hpre, hdrop]
  simp

theorem descrCore_paren (x : List Char) : descrCore ('(' :: x) = none := by
  simp [descrCore, List.takeWhile_cons, show isAlnumChar '(' = false from rfl]

theorem ensure_idem (d : List Char) :
    ensure_description_parens (ensure_description_parens d) = ensure_description_parens d := by
  unfold ensure_description_parens
  by_cases he : d.isEmpty
  · simp [he]
  · cases hm : descrMatch? d with
    | none => simp [he, hm]
    | some p =>
      obtain ⟨ext, tail⟩ := p
      simp only [he, Bool.false_eq_true, if_false, hm]
      have ho : "Item is a (".data ++ ext ++ ")".data ++ tail
          = "Item is a ".data ++ ('(' :: (ext ++ ")".data ++ tail)) := rfl
      rw [ho]
      have hne : ("Item is a ".data ++ ('(' :: (ext ++ ")".data ++ tail))).isEmpty = false := rfl
      rw [hne, descrMatch?_append, descrCore_paren]
      simp

theorem descrCore_some (z ext tail : List Char) (h : descrCore z = some (ext, tail)) :
    ext = z.takeWhile isAlnumChar ∧ ext.isEmpty = false ∧
      ∃ u, tail = " file".data ++ u ∧ u.count '\n' = 0 ∧
        (u = [] ∨ ∃ c w, u = c :: w ∧ isWordChar c = false) := by
  unfold descrCore at h
  dsimp only at h
  by_cases h1 : (z.takeWhile isAlnumChar).isEmpty
  · simp [h1] at h
  by_cases h2 : (" file".data.isPrefixOf (z.dropWhile isAlnumChar)) = true
  case neg => simp [h1, h2] at h
  simp only [h1, Bool.false_eq_true, if_false, h2, if_true] at h
  have hne0 : (z.takeWhile isAlnumChar).isEmpty = false := by
    cases hh : (z.takeWhile isAlnumChar).isEmpty
    · rfl
    · exact absurd hh h1
  cases ht : (z.dropWhile isAlnumChar).drop 5 with
  | nil =>
    rw [ht] at h; simp at h
    exact ⟨h.1.symm, h.1 ▸ hne0, [], by simp [h.2], rfl, Or.inl rfl⟩
  | cons c w =>
    rw [ht] at h
    by_cases hw : isWordChar c
    · simp [hw] at h
    · simp only [hw] at h
      by_cases hc : ((c :: w).count '\n') = 0
      · simp [hc] at h
        exact ⟨h.1.symm, h.1 ▸ hne0, c :: w, h.2.symm, hc,
          Or.inr ⟨c, w, rfl, by simpa using hw⟩⟩
      · by_cases hc1 : ((c :: w).count '\n') = 1 ∧ (c :: w).getLast? = some '\n'
        · simp [hc, hc1.1, hc1.2, Bool.not_eq_true] at h
          refine ⟨h.1.symm, h.1 ▸ hne0, (c :: w).dropLast, h.2.symm, ?_, ?_⟩
          · have hsplit : (c :: w).dropLast ++ ['\n'] = c :: w :=
              List.dropLast_append_getLast? _ hc1.2
            have hco := hc1.1
            rw [← hsplit, List.count_append] at hco
            simpa using hco
          · cases w with
            | nil => exact Or.inl rfl
            | cons d w2 =>
              exact Or.inr ⟨c, (d :: w2).dropLast, rfl, by simpa using hw⟩
        · rcases Decidable.not_and_iff_or_not.mp hc1 with hx | hx <;>
            simp [hc, hx, Bool.not_eq_true] at h

theorem descrCore_roundtrip (ext u : List Char)
    (hal : ∀ c ∈ ext, isAlnumChar c = true) (hne : ext.isEmpty = false)
    (hcnt : u.count '\n' = 0)
    (hb : u = [] ∨ ∃ c w, u = c :: w ∧ isWordChar c = false) :
    descrCore (ext ++ (" file".data ++ u)) = some (ext, " file".data ++ u) := by
  have hsp : (" file".data ++ u) = ' ' :: ("file".data ++ u) := rfl
  have htw : (ext ++ (" file".data ++ u)).takeWhile isAlnumChar = ext := by
    rw [takeWhile_app _ _ _ hal, hsp, List.takeWhile_cons]
    simp [show isAlnumChar ' ' = false from rfl]
  have hdw : (ext ++ (" file".data ++ u)).dropWhile isAlnumChar = " file".data ++ u := by
    rw [dropWhile_app _ _ _ hal, hsp, List.dropWhile_cons]
    simp [show isAlnumChar ' ' = false from rfl]
  have hpre : (" file".data.isPrefixOf (" file".data ++ u)) = true := by
    rw [List.isPrefixOf_iff_prefix]; exact List.prefix_append _ _
  have hdrop : (" file".data ++ u).drop 5 = u := by
    have h5 : (" file".data).length = 5 := rfl
    rw [← h5, List.drop_left]
  unfold descrCore
  dsimp only
  rw [htw, hdw, hne, hpre, hdrop]
  rcases hb with rfl | ⟨c, w, rfl, hw⟩
  · simp
  · simp [hw, hcnt]

theorem ensure_cm_idem (d : List Char) :
    ensure_description_parens_cm (ensure_description_parens_cm d) = ensure_description_parens_cm d := by
  unfold ensure_description_parens_cm
  by_cases he : d.isEmpty
  · simp [he]
  · cases hm : descrMatch? d with
    | none => simp [he, hm]
    | some p =>
      obtain ⟨ext, tail⟩ := p
      simp only [he, Bool.false_eq_true, if_false, hm]
      have hcore : descrCore (d.drop 10) = some (ext, tail) := by
        unfold descrMatch? at hm
        by_cases hp : ("Item is a ".data.isPrefixOf d) = true <;> simp [hp] at hm
        exact hm
      obtain ⟨hext, hne, u, hu, hcnt, hb⟩ := descrCore_some _ _ _ hcore
      have hal : ∀ c ∈ ext, isAlnumChar c = true := by
        intro c hc; exact List.mem_takeWhile_imp (hext ▸ hc)
      have hnil : ("Item is a ".data ++ ext ++ tail).isEmpty = false := rfl
      rw [hnil, hu]
      have hassoc : ("Item is a ".data ++ ext ++ (" file".data ++ u))
          = "Item is a ".data ++ (ext ++ (" file".data ++ u)) := rfl
      rw [hassoc, descrMatch?_append, descrCore_roundtrip ext u hal hne hcnt hb]
      simp

theorem marker_not_data (s : List Char) (h : ("objects/".data).isPrefixOf s = true) :
    ("data/objects/".data).isPrefixOf s = false := by
  rw [List.isPrefixOf_iff_prefix] at h
  obtain ⟨t1, h1⟩ := h
  by_contra hc
  rw [Bool.not_eq_false, List.isPrefixOf_iff_prefix] at hc
  obtain ⟨t2, h2⟩ := hc
  rw [← h1] at h2
  have e1 : "data/objects/".data ++ t2 = 'd' :: ("ata/objects/".data ++ t2) := rfl
  have e2 : "objects/".data ++ t1 = 'o' :: ("bjects/".data ++ t1) := rfl
  rw [e1, e2] at h2
  simp at h2

/-! ### Record-field lemmas -/

theorem updateMarker_filename (r : Row) (i : List Char) :
    (updateMarker r i).filename = r.filename := by
  unfold updateMarker
  dsimp only
  repeat' split
  all_goals rfl

theorem updateMarker_format2 (r : Row) (i : List Char) :
    (updateMarker r i).format2 = r.format2 := by
  unfold updateMarker
  dsimp only
  repeat' split
  all_goals rfl

theorem updateMarker_isMarker (r : Row) (i : List Char) :
    isMarker (updateMarker r i) = isMarker r := by
  unfold isMarker
  rw [updateMarker_filename]

theorem updateMarker_idem (r : Row) (i : List Char) :
    updateMarker (updateMarker r i) i = updateMarker r i := by
  have hfld : (strip "1 digital folder".data).isEmpty = false := rfl
  unfold updateMarker
  dsimp only
  by_cases h1 : i.isEmpty <;> by_cases h2 : (strip r.format).isEmpty <;>
    simp [h1, h2, hfld]

theorem normalizeRow_filename (r : Row) : (normalizeRow r).filename = r.filename := by
  unfold normalizeRow
  by_cases h : ("data/objects/".data.isPrefixOf r.filename) = true
  · simp only [h, if_true]
    by_cases h2 : (strip r.title).isEmpty <;> simp [h2]
  · simp [h]

theorem normalizeRow_date (r : Row) : (normalizeRow r).date = r.date := by
  unfold normalizeRow
  by_cases h : ("data/objects/".data.isPrefixOf r.filename) = true
  · simp only [h, if_true]
    by_cases h2 : (strip r.title).isEmpty <;> simp [h2]
  · simp [h]

theorem normalizeRow_format2 (r : Row) : (normalizeRow r).format2 = r.format2 := by
  unfold normalizeRow
  by_cases h : ("data/objects/".data.isPrefixOf r.filename) = true
  · simp only [h, if_true]
    by_cases h2 : (strip r.title).isEmpty <;> simp [h2]
  · simp [h]

theorem normalizeRow_marker (r : Row) (h : isMarker r = true) : normalizeRow r = r := by
  unfold normalizeRow
  rw [marker_not_data _ h]
  simp

theorem normalizeRow_idem (r : Row) : normalizeRow (normalizeRow r) = normalizeRow r := by
  unfold normalizeRow
  by_cases h : ("data/objects/".data.isPrefixOf r.filename) = true
  case neg => simp [h]
  simp only [h, if_true]
  by_cases h2 : (strip r.title).isEmpty
  · simp only [h2, if_true]
    by_cases h3 : (strip (basename_from_path r.filename)).isEmpty <;>
      simp [h, h2, h3, ensure_idem]
  · simp [h, h2, ensure_idem]

theorem normalizeRowCm_filename (r : Row) : (normalizeRowCm r).filename = r.filename := by
  unfold normalizeRowCm
  by_cases h : ("data/objects/".data.isPrefixOf r.filename) = true
  · simp only [h, if_true]
    by_cases h2 : (strip r.title).isEmpty <;> simp [h2]
  · simp [h]

theorem normalizeRowCm_date (r : Row) : (normalizeRowCm r).date = r.date := by
  unfold normalizeRowCm
  by_cases h : ("data/objects/".data.isPrefixOf r.filename) = true
  · simp only [h, if_true]
    by_cases h2 : (strip r.title).isEmpty <;> simp [h2]
  · simp [h]

theorem normalizeRowCm_marker (r : Row) (h : isMarker r = true) : normalizeRowCm r = r := by
  unfold normalizeRowCm
  rw [marker_not_data _ h]
  simp

theorem normalizeRowCm_idem (r : Row) : normalizeRowCm (normalizeRowCm r) = normalizeRowCm r := by
  unfold normalizeRowCm
  by_cases h : ("data/objects/".data.isPrefixOf r.filename) = true
  case neg => simp [h]
  simp only [h, if_true]
  by_cases h2 : (strip r.title).isEmpty
  · simp only [h2, if_true]
    by_cases h3 : (strip (basename_from_path r.filename)).isEmpty <;>
      simp [h, h2, h3, ensure_cm_idem]
  · simp [h, h2, ensure_cm_idem]

/-! ### Marker-index lemmas -/

theorem groupIndicesFrom_lb (i : Nat) (l : List Row) :
    ∀ x ∈ groupIndicesFrom i l, i ≤ x := by
  induction l generalizing i with
  | nil => simp [groupIndicesFrom]
  | cons r rest ih =>
    intro x hx
    unfold groupIndicesFrom at hx
    by_cases hm : isMarker r
    · simp only [hm, if_true, List.mem_cons] at hx
      rcases hx with rfl | hx2
      · exact Nat.le_refl x
      · exact Nat.le_of_succ_le (ih (i + 1) x hx2)
    · simp only [hm, Bool.false_eq_true, if_false] at hx
      exact Nat.le_of_succ_le (ih (i + 1) x hx)

theorem groupIndicesFrom_pairwise (i : Nat) (l : List Row) :
    (groupIndicesFrom i l).Pairwise (· < ·) := by
  induction l generalizing i with
  | nil => simp [groupIndicesFrom]
  | cons r rest ih =>
    unfold groupIndicesFrom
    by_cases hm : isMarker r
    · simp only [hm, if_true]
      exact List.pairwise_cons.mpr
        ⟨fun x hx => Nat.lt_of_succ_le (groupIndicesFrom_lb (i + 1) rest x hx), ih (i + 1)⟩
    · simp only [hm, Bool.false_eq_true, if_false]
      exact ih (i + 1)

theorem mem_groupIndicesFrom (i j : Nat) (l : List Row) :
    j ∈ groupIndicesFrom i l ↔
      i ≤ j ∧ ∃ r, l[j - i]? = some r ∧ isMarker r = true := by
  induction l generalizing i with
  | nil => simp [groupIndicesFrom]
  | cons r0 rest ih =>
    unfold groupIndicesFrom
    by_cases hm : isMarker r0
    · simp only [hm, if_true, List.mem_cons]
      constructor
      · rintro (rfl | hx)
        · exact ⟨Nat.le_refl j, r0, by simp, hm⟩
        · obtain ⟨hij, r, hr, hmr⟩ := (ih (i + 1)).mp hx
          refine ⟨Nat.le_of_succ_le hij, r, ?_, hmr⟩
          have hji : j - i = (j - (i + 1)) + 1 := by omega
          rw [hji, List.getElem?_cons_succ]
          exact hr
      · rintro ⟨hij, r, hr, hmr⟩
        by_cases hji : j = i
        · exact Or.inl hji
        · right
          apply (ih (i + 1)).mpr
          refine ⟨by omega, r, ?_, hmr⟩
          have hj2 : j - i = (j - (i + 1)) + 1 := by omega
          rw [hj2, List.getElem?_cons_succ] at hr
          exact hr
    · simp only [hm, Bool.false_eq_true, if_false]
      rw [ih (i + 1)]
      constructor
      · rintro ⟨hij, r, hr, hmr⟩
        refine ⟨Nat.le_of_succ_le hij, r, ?_, hmr⟩
        have hji : j - i = (j - (i + 1)) + 1 := by omega
        rw [hji, List.getElem?_cons_succ]
        exact hr
      · rintro ⟨hij, r, hr, hmr⟩
        by_cases hji : j = i
        · subst hji
          rw [Nat.sub_self, List.getElem?_cons_zero] at hr
          cases hr
          exact absurd hmr (by simpa using hm)
        · refine ⟨by omega, r, ?_, hmr⟩
          have hj2 : j - i = (j - (i + 1)) + 1 := by omega
          rw [hj2, List.getElem?_cons_succ] at hr
          exact hr

theorem groupIndices_mem (rows : List Row) (j : Nat) :
    j ∈ groupIndices rows ↔ ∃ r, rows[j]? = some r ∧ isMarker r = true := by
  unfold groupIndices
  rw [mem_groupIndicesFrom]
  simp

theorem groupIndices_pairwise (rows : List Row) :
    (groupIndices rows).Pairwise (· < ·) :=
  groupIndicesFrom_pairwise 0 rows

theorem groupIndices_lt_length (rows : List Row) (j : Nat)
    (h : j ∈ groupIndices rows) : j < rows.length := by
  obtain ⟨r, hr, -⟩ := (groupIndices_mem rows j).mp h
  by_contra hc
  rw [List.getElem?_eq_none (by omega)] at hr
  cases hr

theorem groupIndicesFrom_congr (i : Nat) (l₁ l₂ : List Row)
    (h : ∀ k : Nat, (l₁[k]?).map isMarker = (l₂[k]?).map isMarker) :
    groupIndicesFrom i l₁ = groupIndicesFrom i l₂ := by
  induction l₁ generalizing i l₂ with
  | nil =>
    cases l₂ with
    | nil => rfl
    | cons b bs => have h0 := h 0; simp at h0
  | cons a as ih =>
    cases l₂ with
    | nil => have h0 := h 0; simp at h0
    | cons b bs =>
      have h0 := h 0
      simp only [List.getElem?_cons_zero, Option.map_some'] at h0
      have hm : isMarker a = isMarker b := Option.some.inj h0
      have htail : ∀ k : Nat, (as[k]?).map isMarker = (bs[k]?).map isMarker := by
        intro k
        have hk := h (k + 1)
        simpa using hk
      unfold groupIndicesFrom
      rw [hm, ih (i + 1) bs htail]

/-! ### `nextAfter` lemmas -/

theorem nextAfter_cons_self (gi : Nat) (rest : List Nat) (total : Nat)
    (hrest : ∀ x ∈ rest, gi < x) :
    nextAfter (gi :: rest) gi total = rest.headD total := by
  unfold nextAfter
  rw [List.filter_cons]
  have h0 : (decide (gi < gi)) = false := by simp
  rw [h0]
  simp only [Bool.false_eq_true, if_false]
  rw [List.filter_eq_self.mpr (fun a ha => by simpa using hrest a ha)]

theorem nextAfter_cons_of_lt (gi : Nat) (rest : List Nat) (j total : Nat) (h : gi < j) :
    nextAfter (gi :: rest) j total = nextAfter rest j total := by
  unfold nextAfter
  rw [List.filter_cons]
  simp [Nat.not_lt.mpr (Nat.le_of_lt h)]

theorem nextAfter_le_of_mem (gis : List Nat) (j total k : Nat)
    (hs : gis.Pairwise (· < ·)) (hk : k ∈ gis) (hjk : j < k) :
    nextAfter gis j total ≤ k := by
  unfold nextAfter
  have hkf : k ∈ gis.filter (fun x => decide (j < x)) :=
    List.mem_filter.mpr ⟨hk, by simpa⟩
  have hps : (gis.filter (fun x => decide (j < x))).Pairwise (· < ·) :=
    List.Pairwise.sublist (List.filter_sublist gis) hs
  cases hf : gis.filter (fun x => decide (j < x)) with
  | nil => rw [hf] at hkf; cases hkf
  | cons a as =>
    rw [hf] at hkf hps
    rcases List.mem_cons.mp hkf with rfl | hmem
    · exact Nat.le_refl _
    · exact Nat.le_of_lt ((List.pairwise_cons.mp hps).1 k hmem)

theorem nextAfter_le_total (gis : List Nat) (j total : Nat)
    (htot : ∀ x ∈ gis, x < total) :
    nextAfter gis j total ≤ total := by
  unfold nextAfter
  cases hf : gis.filter (fun x => decide (j < x)) with
  | nil => exact Nat.le_refl _
  | cons a as =>
    have ha : a ∈ gis := by
      have : a ∈ gis.filter (fun x => decide (j < x)) := by rw [hf]; simp
      exact (List.mem_filter.mp this).1
    exact Nat.le_of_lt (htot a ha)

/-! ### The sequential marker pass, characterized pointwise -/

theorem groupPassAux_length (rows : List Row) (gis : List Nat) :
    (groupPassAux rows gis).length = rows.length := by
  induction gis generalizing rows with
  | nil => rfl
  | cons gi rest ih =>
    unfold groupPassAux
    rw [ih, List.length_set]

theorem groupPassAux_getElem? (rows : List Row) (gis : List Nat)
    (hs : gis.Pairwise (· < ·)) (j : Nat) :
    (groupPassAux rows gis)[j]? =
      if j ∈ gis then
        (rows[j]?).map (fun r => updateMarker r
          (infer_group_date (childDates rows j (nextAfter gis j rows.length))))
      else rows[j]? := by
  induction gis generalizing rows with
  | nil => simp [groupPassAux]
  | cons gi rest ih =>
    obtain ⟨hgi, hrest⟩ := List.pairwise_cons.mp hs
    unfold groupPassAux
    rw [ih (rows.set gi (updateMarker ((rows[gi]?).getD default)
      (infer_group_date (childDates rows gi (rest.headD rows.length))))) hrest]
    rw [List.length_set]
    by_cases hj : j ∈ rest
    · have hgij : gi < j := hgi j hj
      rw [if_pos hj, if_pos (List.mem_cons.mpr (Or.inr hj))]
      rw [List.getElem?_set_ne (Nat.ne_of_lt hgij)]
      rw [nextAfter_cons_of_lt gi rest j _ hgij]
      have hcd : childDates (rows.set gi (updateMarker ((rows[gi]?).getD default)
            (infer_group_date (childDates rows gi (rest.headD rows.length))))) j
            (nextAfter rest j rows.length)
          = childDates rows j (nextAfter rest j rows.length) := by
        unfold childDates
        rw [List.drop_set_of_lt _ _ (by omega : gi < j + 1)]
      rw [hcd]
    · by_cases hji : j = gi
      · subst hji
        rw [if_neg hj, if_pos (List.mem_cons.mpr (Or.inl rfl))]
        rw [nextAfter_cons_self j rest _ hgi]
        by_cases hlt : j < rows.length
        · rw [List.getElem?_set_self hlt]
          rw [List.getElem?_eq_getElem hlt]
          rfl
        · rw [List.set_eq_of_length_le (by omega)]
          rw [List.getElem?_eq_none (by omega)]
          rfl
      · rw [if_neg hj, if_neg (by simp [hji, hj])]
        exact List.getElem?_set_ne (fun he => hji he.symm)

/-- The marker pass, pointwise: markers are rewritten from the child dates
between them and the next marker, everything else is untouched. -/
theorem groupPass_getElem? (rows : List Row) (j : Nat) :
    (groupPass rows)[j]? =
      if j ∈ groupIndices rows then
        (rows[j]?).map (fun r => updateMarker r
          (infer_group_date (childDates rows j
            (nextAfter (groupIndices rows) j rows.length))))
      else rows[j]? :=
  groupPassAux_getElem? rows (groupIndices rows) (groupIndices_pairwise rows) j

theorem groupPass_length (rows : List Row) :
    (groupPass rows).length = rows.length :=
  groupPassAux_length rows (groupIndices rows)

/-! ### Idempotence of the combined synthesizer pass -/

theorem pass_filename_map (nf : Row → Row) (hfn : ∀ r, (nf r).filename = r.filename)
    (rows : List Row) (j : Nat) :
    (((groupPass rows).map nf)[j]?).map Row.filename = (rows[j]?).map Row.filename := by
  rw [List.getElem?_map, groupPass_getElem?]
  by_cases hjj : j ∈ groupIndices rows
  · rw [if_pos hjj]; cases rows[j]? <;> simp [hfn, updateMarker_filename]
  · rw [if_neg hjj]; cases rows[j]? <;> simp [hfn]

theorem pass_marker_map (nf : Row → Row) (hfn : ∀ r, (nf r).filename = r.filename)
    (rows : List Row) (j : Nat) :
    (((groupPass rows).map nf)[j]?).map isMarker = (rows[j]?).map isMarker := by
  have hfm := pass_filename_map nf hfn rows j
  cases h1 : (((groupPass rows).map nf)[j]?) with
  | none =>
    rw [h1] at hfm
    cases h2 : rows[j]? with
    | none => rfl
    | some r => rw [h2] at hfm; simp at hfm
  | some r1 =>
    rw [h1] at hfm
    cases h2 : rows[j]? with
    | none => rw [h2] at hfm; simp at hfm
    | some r2 =>
      rw [h2] at hfm
      simp only [Option.map_some'] at hfm ⊢
      unfold isMarker
      rw [Option.some.inj hfm]

theorem pass_date_nonmarker (nf : Row → Row) (hdate : ∀ r, (nf r).date = r.date)
    (rows : List Row) (j : Nat) (hj : j ∉ groupIndices rows) :
    (((groupPass rows).map nf)[j]?).map Row.date = (rows[j]?).map Row.date := by
  rw [List.getElem?_map, groupPass_getElem?, if_neg hj]
  cases rows[j]? <;> simp [hdate]

theorem pass_groupIndices (nf : Row → Row) (hfn : ∀ r, (nf r).filename = r.filename)
    (rows : List Row) :
    groupIndices ((groupPass rows).map nf) = groupIndices rows :=
  groupIndicesFrom_congr 0 _ _ (pass_marker_map nf hfn rows)

theorem pass_childDates (nf : Row → Row) (hdate : ∀ r, (nf r).date = r.date)
    (rows : List Row) (j : Nat) :
    childDates ((groupPass rows).map nf) j (nextAfter (groupIndices rows) j rows.length)
      = childDates rows j (nextAfter (groupIndices rows) j rows.length) := by
  apply List.ext_getElem?
  intro n
  unfold childDates
  rw [List.getElem?_map, List.getElem?_map, List.getElem?_take, List.getElem?_take]
  by_cases hn : n < nextAfter (groupIndices rows) j rows.length - (j + 1)
  · rw [if_pos hn, if_pos hn, List.getElem?_drop, List.getElem?_drop]
    have hknot : (j + 1 + n) ∉ groupIndices rows := by
      intro hk
      have hle : nextAfter (groupIndices rows) j rows.length ≤ j + 1 + n :=
        nextAfter_le_of_mem _ _ _ _ (groupIndices_pairwise rows) hk (by omega)
      omega
    have hd := pass_date_nonmarker nf hdate rows (j + 1 + n) hknot
    cases h1 : ((groupPass rows).map nf)[j + 1 + n]? with
    | none =>
      rw [h1] at hd
      cases h2 : rows[j + 1 + n]? with
      | none => rfl
      | some r => rw [h2] at hd; simp at hd
    | some r1 =>
      rw [h1] at hd
      cases h2 : rows[j + 1 + n]? with
      | none => rw [h2] at hd; simp at hd
      | some r2 =>
        rw [h2] at hd
        simp only [Option.map_some'] at hd ⊢
        rw [Option.some.inj hd]
  · rw [if_neg hn, if_neg hn]

theorem pass_idem (nf : Row → Row)
    (hfn : ∀ r, (nf r).filename = r.filename)
    (hdate : ∀ r, (nf r).date = r.date)
    (hmk : ∀ r, isMarker r = true → nf r = r)
    (hid : ∀ r, nf (nf r) = nf r)
    (rows : List Row) :
    (groupPass ((groupPass rows).map nf)).map nf = (groupPass rows).map nf := by
  apply List.ext_getElem?
  intro j
  rw [List.getElem?_map, groupPass_getElem? ((groupPass rows).map nf) j]
  rw [pass_groupIndices nf hfn rows]
  have hBlen : ((groupPass rows).map nf).length = rows.length := by
    rw [List.length_map, groupPass_length]
  rw [hBlen]
  by_cases hj : j ∈ groupIndices rows
  · rw [if_pos hj, pass_childDates nf hdate rows j]
    rw [List.getElem?_map, groupPass_getElem? rows j, if_pos hj]
    cases h2 : rows[j]? with
    | none => rfl
    | some r =>
      obtain ⟨r', hr', hmr'⟩ := (groupIndices_mem rows j).mp hj
      rw [h2] at hr'
      cases hr'
      have hmark : isMarker r = true := hmr'
      simp only [Option.map_some']
      have hm1 : isMarker (updateMarker r
          (infer_group_date (childDates rows j
            (nextAfter (groupIndices rows) j rows.length)))) = true := by
        rw [updateMarker_isMarker]; exact hmark
      rw [hmk _ hm1, updateMarker_idem, hmk _ hm1]
  · rw [if_neg hj]
    rw [List.getElem?_map, groupPass_getElem? rows j, if_neg hj]
    cases rows[j]? with
    | none => rfl
    | some r => simp only [Option.map_some']; rw [hid]

/-! ### The `objects`-row removal -/

theorem removeFirstObjects_of_not_mem (rows : List Row)
    (h : ∀ r ∈ rows, ¬(strip r.filename = "objects".data)) :
    removeFirstObjects rows = rows := by
  induction rows with
  | nil => rfl
  | cons r rest ih =>
    unfold removeFirstObjects
    rw [if_neg (h r (by simp))]
    rw [ih (fun x hx => h x (by simp [hx]))]

theorem removeFirstObjects_no_objects_left (rows : List Row)
    (h : rows.countP (fun r => strip r.filename == "objects".data) ≤ 1) :
    ∀ x ∈ removeFirstObjects rows, ¬(strip x.filename = "objects".data) := by
  induction rows with
  | nil => intro x hx; cases hx
  | cons r rest ih =>
    unfold removeFirstObjects
    by_cases hr : strip r.filename = "objects".data
    · rw [if_pos hr]
      have hpr : ((strip r.filename == "objects".data) : Bool) = true := by simpa using hr
      rw [List.countP_cons, hpr, if_pos rfl] at h
      have hc : rest.countP (fun r => strip r.filename == "objects".data) = 0 := by omega
      intro x hx
      have hcx := List.countP_eq_zero.mp hc x hx
      simpa using hcx
    · rw [if_neg hr]
      intro x hx
      rcases List.mem_cons.mp hx with rfl | hx2
      · exact hr
      · have hpr : ((strip r.filename == "objects".data) : Bool) = false := by
          simpa using hr
        rw [List.countP_cons, hpr, if_neg Bool.false_ne_true] at h
        exact ih (by omega) x hx2

theorem pass_not_objects (nf : Row → Row) (hfn : ∀ r, (nf r).filename = r.filename)
    (rows : List Row)
    (h : ∀ x ∈ rows, ¬(strip x.filename = "objects".data)) :
    ∀ x ∈ (groupPass rows).map nf, ¬(strip x.filename = "objects".data) := by
  intro x hx
  obtain ⟨j, hj⟩ := List.mem_iff_getElem?.mp hx
  have hfm := pass_filename_map nf hfn rows j
  rw [hj] at hfm
  cases h2 : rows[j]? with
  | none => rw [h2] at hfm; simp at hfm
  | some r =>
    rw [h2] at hfm
    simp only [Option.map_some'] at hfm
    rw [Option.some.inj hfm]
    exact h r (List.mem_iff_getElem?.mpr ⟨j, h2⟩)

/-! ### Field values of the marker update -/

theorem updateMarker_title (r : Row) (i : List Char) :
    (updateMarker r i).title = if r.filename.isEmpty then [] else afterLastSlash r.filename := by
  unfold updateMarker
  dsimp only
  by_cases h1 : i.isEmpty <;> by_cases h2 : (strip r.format).isEmpty <;> simp [h1, h2]

theorem updateMarker_date (r : Row) (i : List Char) :
    (updateMarker r i).date = if i.isEmpty then r.date else i := by
  unfold updateMarker
  dsimp only
  by_cases h1 : i.isEmpty <;> by_cases h2 : (strip r.format).isEmpty <;> simp [h1, h2]

theorem updateMarker_format (r : Row) (i : List Char) :
    (updateMarker r i).format =
      if (strip r.format).isEmpty then "1 digital folder".data else r.format := by
  unfold updateMarker
  dsimp only
  by_cases h1 : i.isEmpty <;> by_cases h2 : (strip r.format).isEmpty <;> simp [h1, h2]

theorem updateMarker_description (r : Row) (i : List Char) :
    (updateMarker r i).description =
      "Folder contains files relating to ".data ++
        (if r.filename.isEmpty then [] else afterLastSlash r.filename) := by
  unfold updateMarker
  dsimp only

theorem dropWhile_head_false (p : Char → Bool) (l : List Char) (c : Char) (w : List Char)
    (h : l.dropWhile p = c :: w) : p c = false := by
  induction l with
  | nil => simp [List.dropWhile] at h
  | cons a as ih =>
    rw [List.dropWhile_cons] at h
    by_cases hp : p a
    · rw [if_pos hp] at h
      exact ih h
    · rw [if_neg hp] at h
      cases h
      simpa using hp

/-- `afterLastSlash` is the part after the final slash: either there is no
slash and it is the whole string, or the string splits as
`p ++ slash :: afterLastSlash s` with no slash in the suffix. -/
theorem afterLastSlash_spec (s : List Char) :
    (¬('/' ∈ s) ∧ afterLastSlash s = s) ∨
      (∃ p, s = p ++ '/' :: afterLastSlash s ∧ ¬('/' ∈ afterLastSlash s)) := by
  have hnos : ∀ x ∈ afterLastSlash s, ¬(x = '/') := by
    intro x hx
    have hx2 : x ∈ s.reverse.takeWhile (fun c => !(c = '/')) := by
      unfold afterLastSlash at hx
      simpa using hx
    have := List.mem_takeWhile_imp hx2
    simpa using this
  by_cases hs : '/' ∈ s
  · right
    have hmem : '/' ∈ s.reverse := by simpa using hs
    have hd : s.reverse.dropWhile (fun c => !(c = '/')) ≠ [] := by
      intro hnil
      have hall := List.dropWhile_eq_nil_iff.mp hnil '/' hmem
      simp at hall
    obtain ⟨c, w, hcw⟩ := List.exists_cons_of_ne_nil hd
    have hc : c = '/' := by
      have := dropWhile_head_false _ _ _ _ hcw
      simpa using this
    subst hc
    refine ⟨w.reverse, ?_, fun hmem2 => (hnos '/' hmem2) rfl⟩
    have hsplit : s.reverse.takeWhile (fun c => !(c = '/')) ++
        s.reverse.dropWhile (fun c => !(c = '/')) = s.reverse :=
      List.takeWhile_append_dropWhile _ _
    rw [hcw] at hsplit
    have hA : afterLastSlash s = (s.reverse.takeWhile (fun c => !(c = '/'))).reverse := rfl
    have h1 : s = (s.reverse.takeWhile (fun c => !(c = '/')) ++ '/' :: w).reverse := by
      rw [hsplit, List.reverse_reverse]
    conv_lhs => rw [h1]
    rw [List.reverse_append, hA]
    simp
  · left
    refine ⟨hs, ?_⟩
    unfold afterLastSlash
    rw [List.takeWhile_eq_self_iff.mpr]
    · simp
    · intro x hx
      have : ¬(x = '/') := by
        intro hx2
        subst hx2
        exact hs (by simpa using hx)
      simpa using this

/-! ### Positional form of `nextAfter` -/

theorem nextAfter_eq_succ_idx (gis : List Nat) (hs : gis.Pairwise (· < ·))
    (i gi total : Nat) (h : gis[i]? = some gi) :
    nextAfter gis gi total = (gis[i + 1]?).getD total := by
  induction gis generalizing i with
  | nil => simp at h
  | cons a rest ih =>
    obtain ⟨ha, hrest⟩ := List.pairwise_cons.mp hs
    cases i with
    | zero =>
      rw [List.getElem?_cons_zero] at h
      simp only [Option.some.injEq] at h
      subst h
      rw [nextAfter_cons_self a rest total ha]
      rw [List.getElem?_cons_succ]
      cases rest <;> simp [List.headD]
    | succ i2 =>
      rw [List.getElem?_cons_succ] at h
      have hgi : a < gi := ha gi (List.mem_iff_getElem?.mpr ⟨i2, h⟩)
      rw [nextAfter_cons_of_lt a rest gi total hgi]
      rw [List.getElem?_cons_succ]
      exact ih hrest i2 h

/-! ### `Counter.most_common(1)[0]` specification -/

theorem le_foldl_max (l : List Nat) (a : Nat) : a ≤ l.foldl max a := by
  induction l generalizing a with
  | nil => exact Nat.le_refl a
  | cons b bs ih =>
    exact Nat.le_trans (Nat.le_max_left a b) (ih (max a b))

theorem foldl_max_mem_le (l : List Nat) (a x : Nat) (hx : x ∈ l) : x ≤ l.foldl max a := by
  induction l generalizing a with
  | nil => cases hx
  | cons b bs ih =>
    rcases List.mem_cons.mp hx with rfl | hx2
    · exact Nat.le_trans (Nat.le_max_right a x) (le_foldl_max bs (max a x))
    · exact ih (max a b) hx2

theorem foldl_max_mem_or (l : List Nat) (a : Nat) :
    l.foldl max a = a ∨ l.foldl max a ∈ l := by
  induction l generalizing a with
  | nil => exact Or.inl rfl
  | cons b bs ih =>
    rcases ih (max a b) with h | h
    · rcases max_choice a b with hm | hm
      · exact Or.inl (by rw [List.foldl_cons, h, hm])
      · exact Or.inr (by rw [List.foldl_cons, h, hm]; exact List.mem_cons_self b bs)
    · exact Or.inr (List.mem_cons.mpr (Or.inr h))

theorem firstMostCommon_spec (vals : List (List Char)) (hne : vals ≠ []) :
    (firstMostCommon vals).1 ∈ vals
    ∧ vals.count (firstMostCommon vals).1 = (firstMostCommon vals).2
    ∧ ∀ w ∈ vals, vals.count w ≤ (firstMostCommon vals).2 := by
  unfold firstMostCommon
  dsimp only
  have hex : ∃ v, v ∈ vals ∧
      (vals.count v == (vals.map (fun v => vals.count v)).foldl max 0) = true := by
    rcases foldl_max_mem_or (vals.map fun v => vals.count v) 0 with h0 | hmem
    · exfalso
      obtain ⟨v0, hv0⟩ := List.exists_mem_of_ne_nil vals hne
      have h1 : vals.count v0 ≤ (vals.map fun v => vals.count v).foldl max 0 :=
        foldl_max_mem_le _ _ _ (List.mem_map_of_mem _ hv0)
      have h2 : 0 < vals.count v0 := List.count_pos_iff.mpr hv0
      omega
    · obtain ⟨v, hv, hcv⟩ := List.mem_map.mp hmem
      exact ⟨v, hv, by simp [hcv]⟩
  obtain ⟨v, hv, hbv⟩ := hex
  have hfind : (vals.find? (fun v => vals.count v ==
      (vals.map (fun v => vals.count v)).foldl max 0)).isSome :=
    List.find?_isSome.mpr ⟨v, hv, hbv⟩
  cases hf : vals.find? (fun v => vals.count v ==
      (vals.map (fun v => vals.count v)).foldl max 0) with
  | none => rw [hf] at hfind; simp at hfind
  | some w =>
    simp only [hf]
    have hw1 : w ∈ vals := List.mem_of_find?_eq_some hf
    have hw2 : vals.count w = (vals.map (fun v => vals.count v)).foldl max 0 := by
      simpa using List.find?_some hf
    exact ⟨hw1, hw2, fun u hu => foldl_max_mem_le _ _ _ (List.mem_map_of_mem _ hu)⟩

/-! ### Claim theorems -/

/-- C2 (amended): `convert.py`'s `convert_metadata1_to_metadata` — the Group
Synthesizer of spec section 4.2, which has no removal step — is idempotent on
every input; `convert_metadata.py`'s `convert` additionally removes the first
record whose trimmed filename is `"objects"` before grouping, so re-running
it on its own output changes nothing provided the original input contained at
most one such record. -/
theorem claim_C2_idempotent :
    (∀ rows : List Row,
      convert_metadata1_to_metadata (convert_metadata1_to_metadata rows)
        = convert_metadata1_to_metadata rows)
    ∧ (∀ rows : List Row,
      rows.countP (fun r => strip r.filename == "objects".data) ≤ 1 →
        convert (convert rows) = convert rows) := by
  constructor
  · intro rows
    unfold convert_metadata1_to_metadata
    exact pass_idem normalizeRow normalizeRow_filename normalizeRow_date
      normalizeRow_marker normalizeRow_idem rows
  · intro rows hc
    unfold convert
    have h1 : ∀ x ∈ removeFirstObjects rows, ¬(strip x.filename = "objects".data) :=
      removeFirstObjects_no_objects_left rows hc
    have h2 : ∀ x ∈ (groupPass (removeFirstObjects rows)).map normalizeRowCm,
        ¬(strip x.filename = "objects".data) :=
      pass_not_objects normalizeRowCm normalizeRowCm_filename _ h1
    rw [removeFirstObjects_of_not_mem _ h2]
    exact pass_idem normalizeRowCm normalizeRowCm_filename normalizeRowCm_date
      normalizeRowCm_marker normalizeRowCm_idem (removeFirstObjects rows)

/-- C2, claim as stated is false: on two records whose filename is
`"objects"`, `convert_metadata.py`'s transform removes one row per run, so
running it twice differs from running it once. -/
theorem claim_C2_counterexample :
    ¬(convert (convert exTwoObjects) = convert exTwoObjects) := by decide

/-- C2 witness: a concrete well-formed pipeline input with a single
`"objects"` row, on which a second run of `convert_metadata.py`'s transform
changes nothing. -/
theorem claim_C2_witness :
    exPipeline.countP (fun r => strip r.filename == "objects".data) ≤ 1
      ∧ convert (convert exPipeline) = convert exPipeline :=
  ⟨by decide, claim_C2_idempotent.2 exPipeline (by decide)⟩

/-- C9: before grouping, `convert_metadata.py`'s `convert` removes exactly
the first record whose trimmed filename is `"objects"` (keeping later such
records), leaves the sequence unchanged when there is none, and feeds the
result to the marker pass and normalization. -/
theorem claim_C9_objects_removal :
    (∀ (a : List Row) (r : Row) (b : List Row),
      (∀ x ∈ a, ¬(strip x.filename = "objects".data)) →
      strip r.filename = "objects".data →
      removeFirstObjects (a ++ r :: b) = a ++ b)
    ∧ (∀ rows : List Row, (∀ x ∈ rows, ¬(strip x.filename = "objects".data)) →
        removeFirstObjects rows = rows)
    ∧ (∀ rows : List Row,
        convert rows = (groupPass (removeFirstObjects rows)).map normalizeRowCm) := by
  refine ⟨?_, removeFirstObjects_of_not_mem, fun rows => rfl⟩
  intro a r b ha hr
  induction a with
  | nil =>
    rw [List.nil_append, List.nil_append]
    simp only [removeFirstObjects]
    rw [if_pos hr]
  | cons x xs ih =>
    have hx : ¬(strip x.filename = "objects".data) := ha x (by simp)
    show removeFirstObjects (x :: (xs ++ r :: b)) = x :: (xs ++ b)
    simp only [removeFirstObjects]
    rw [if_neg hx, ih (fun z hz => ha z (by simp [hz]))]

/-- C9 witness: removing the one `"objects"` row from a concrete list. -/
theorem claim_C9_witness :
    (∀ x ∈ [(⟨"a".data, [], [], [], [], []⟩ : Row)],
        ¬(strip x.filename = "objects".data))
    ∧ strip (⟨" objects ".data, [], [], [], [], []⟩ : Row).filename = "objects".data
    ∧ removeFirstObjects
        ([(⟨"a".data, [], [], [], [], []⟩ : Row)]
          ++ (⟨" objects ".data, [], [], [], [], []⟩ : Row)
            :: [(⟨"objects".data, [], [], [], [], []⟩ : Row)])
      = [(⟨"a".data, [], [], [], [], []⟩ : Row)]
          ++ [(⟨"objects".data, [], [], [], [], []⟩ : Row)] :=
  ⟨by decide, by decide,
    claim_C9_objects_removal.1 _ _ _ (by decide) (by decide)⟩

/-- C10: the finalize transform of `convert.py` preserves the number and
order of records; pointwise it never changes a record's `filename` or
`dc.format2` (so with the six-column record type, only `dc.title`,
`dc.date`, `dc.format` and `dc.description` can be rewritten). -/
theorem claim_C10_frame (rows : List Row) :
    (convert_metadata1_to_metadata rows).length = rows.length
    ∧ (∀ j : Nat, ((convert_metadata1_to_metadata rows)[j]?).map Row.filename
        = (rows[j]?).map Row.filename)
    ∧ (∀ j : Nat, ((convert_metadata1_to_metadata rows)[j]?).map Row.format2
        = (rows[j]?).map Row.format2) := by
  refine ⟨?_, ?_, ?_⟩
  · unfold convert_metadata1_to_metadata
    rw [List.length_map, groupPass_length]
  · intro j
    unfold convert_metadata1_to_metadata
    exact pass_filename_map normalizeRow normalizeRow_filename rows j
  · intro j
    unfold convert_metadata1_to_metadata
    rw [List.getElem?_map, groupPass_getElem?]
    by_cases hjj : j ∈ groupIndices rows
    · rw [if_pos hjj]
      cases rows[j]? <;> simp [normalizeRow_format2, updateMarker_format2]
    · rw [if_neg hjj]
      cases rows[j]? <;> simp [normalizeRow_format2]

/-- C4: for every folder-marker record, the synthesizer sets `dc.title` to
the part of the filename after the final slash (the whole filename when
there is no slash), sets `dc.date` to the inferred group date only when
that inference is non-empty, sets `dc.format` to `"1 digital folder"` only
when the existing format is blank, and rewrites `dc.description` to
`"Folder contains files relating to <title>"` unconditionally. -/
theorem claim_C4_marker_fields (rows : List Row) (gi : Nat) (r : Row)
    (hr : rows[gi]? = some r) (hm : isMarker r = true) :
    ∃ out, (convert_metadata1_to_metadata rows)[gi]? = some out ∧
      ((¬('/' ∈ r.filename) ∧ out.title = r.filename) ∨
        (∃ p, r.filename = p ++ '/' :: out.title ∧ ¬('/' ∈ out.title))) ∧
      (∀ inferred, inferred = infer_group_date (childDates rows gi
          (nextAfter (groupIndices rows) gi rows.length)) →
        (inferred ≠ [] → out.date = inferred) ∧ (inferred = [] → out.date = r.date)) ∧
      (strip r.format = [] → out.format = "1 digital folder".data) ∧
      (strip r.format ≠ [] → out.format = r.format) ∧
      out.description = "Folder contains files relating to ".data ++ out.title := by
  have hmem : gi ∈ groupIndices rows := (groupIndices_mem rows gi).mpr ⟨r, hr, hm⟩
  have hout : (convert_metadata1_to_metadata rows)[gi]?
      = some (updateMarker r (infer_group_date (childDates rows gi
          (nextAfter (groupIndices rows) gi rows.length)))) := by
    unfold convert_metadata1_to_metadata
    rw [List.getElem?_map, groupPass_getElem?, if_pos hmem, hr]
    simp only [Option.map_some']
    rw [normalizeRow_marker _ (by rw [updateMarker_isMarker]; exact hm)]
  have hfne : r.filename.isEmpty = false := by
    unfold isMarker at hm
    cases hfn : r.filename with
    | nil => rw [hfn] at hm; simp [List.isPrefixOf] at hm
    | cons c cs => rfl
  refine ⟨_, hout, ?_, ?_, ?_, ?_, ?_⟩
  · rw [updateMarker_title, hfne]
    simp only [Bool.false_eq_true, if_false]
    exact afterLastSlash_spec r.filename
  · intro inferred hinf
    subst hinf
    constructor
    · intro hne2
      rw [updateMarker_date, if_neg (by simpa using hne2)]
    · intro heq
      rw [updateMarker_date, heq]
      simp
  · intro hfmt
    rw [updateMarker_format, if_pos (by simpa using hfmt)]
  · intro hfmt
    rw [updateMarker_format, if_neg (by simpa using hfmt)]
  · rw [updateMarker_description, updateMarker_title]

/-- C4 witness: the concrete two-row input `exMarker` (one marker with blank
format, one child dated `2008-06-20 10:11`). -/
theorem claim_C4_witness :
    (exMarker[0]? = some (⟨"objects/A".data, "old".data, "d0".data, [], "f2".data, "x".data⟩ : Row))
    ∧ isMarker (⟨"objects/A".data, "old".data, "d0".data, [], "f2".data, "x".data⟩ : Row) = true
    ∧ ∃ out, (convert_metadata1_to_metadata exMarker)[0]? = some out ∧
        ((¬('/' ∈ ("objects/A".data : List Char)) ∧ out.title = "objects/A".data) ∨
          (∃ p, ("objects/A".data : List Char) = p ++ '/' :: out.title ∧ ¬('/' ∈ out.title))) ∧
        (∀ inferred, inferred = infer_group_date (childDates exMarker 0
            (nextAfter (groupIndices exMarker) 0 exMarker.length)) →
          (inferred ≠ [] → out.date = inferred) ∧ (inferred = [] → out.date = "d0".data)) ∧
        (strip ([] : List Char) = [] → out.format = "1 digital folder".data) ∧
        (strip ([] : List Char) ≠ [] → out.format = ([] : List Char)) ∧
        out.description = "Folder contains files relating to ".data ++ out.title :=
  ⟨by decide, by decide,
    claim_C4_marker_fields exMarker 0
      (⟨"objects/A".data, "old".data, "d0".data, [], "f2".data, "x".data⟩ : Row)
      (by decide) (by decide)⟩

/-- C5: a record is a folder marker exactly when its filename starts with
the literal `"objects/"`; the `i`-th marker's child dates are drawn from the
records strictly between it and the next marker (or the end of the list),
and no record in that child range is itself a marker. -/
theorem claim_C5_partition (rows : List Row) :
    (∀ j r, rows[j]? = some r →
      (j ∈ groupIndices rows ↔ ("objects/".data.isPrefixOf r.filename) = true))
    ∧ (∀ i gi, (groupIndices rows)[i]? = some gi →
        (groupPass rows)[gi]? = (rows[gi]?).map (fun r => updateMarker r
          (infer_group_date (childDates rows gi
            (((groupIndices rows)[i + 1]?).getD rows.length))))
        ∧ (∀ j r2, gi < j → j < ((groupIndices rows)[i + 1]?).getD rows.length →
            rows[j]? = some r2 → isMarker r2 = false)) := by
  constructor
  · intro j r hjr
    rw [groupIndices_mem]
    constructor
    · rintro ⟨r2, hr2, hm2⟩
      rw [hjr] at hr2
      cases hr2
      exact hm2
    · intro hpf
      exact ⟨r, hjr, hpf⟩
  · intro i gi hgi
    have hmem : gi ∈ groupIndices rows := List.mem_iff_getElem?.mpr ⟨i, hgi⟩
    have hnext : nextAfter (groupIndices rows) gi rows.length
        = ((groupIndices rows)[i + 1]?).getD rows.length :=
      nextAfter_eq_succ_idx _ (groupIndices_pairwise rows) i gi _ hgi
    constructor
    · rw [groupPass_getElem?, if_pos hmem, hnext]
    · intro j r2 hj1 hj2 hjr
      cases hmm : isMarker r2
      · rfl
      · exfalso
        have hjmem : j ∈ groupIndices rows := (groupIndices_mem rows j).mpr ⟨r2, hjr, hmm⟩
        have hle := nextAfter_le_of_mem (groupIndices rows) gi rows.length j
          (groupIndices_pairwise rows) hjmem hj1
        rw [hnext] at hle
        omega

/-- C5 witness: on `exPipeline`, index 1 is the only marker, and its child
range is indices 2-3. -/
theorem claim_C5_witness :
    ((groupIndices exPipeline)[0]? = some 1)
    ∧ ((groupPass exPipeline)[1]? = (exPipeline[1]?).map (fun r => updateMarker r
        (infer_group_date (childDates exPipeline 1
          (((groupIndices exPipeline)[0 + 1]?).getD exPipeline.length))))
      ∧ (∀ j r2, 1 < j → j < ((groupIndices exPipeline)[0 + 1]?).getD exPipeline.length →
          exPipeline[j]? = some r2 → isMarker r2 = false)) :=
  ⟨by decide, (claim_C5_partition exPipeline).2 0 1 (by decide)⟩

/-- C1: `infer_group_date` returns the empty string when every entry is
blank; otherwise, when the most frequent exact entry occurs more than once,
it returns a non-blank entry of maximal multiplicity verbatim; otherwise it
extracts all `19xx/20xx` years and returns the first non-blank entry when
there are none, the single year as a bare decimal string when they all
agree, and `min-max` (ascending, hyphen-joined, decimal) when they differ. -/
theorem claim_C1_infer_group_date (ds : List (List Char)) :
    (ds.filter (fun d => !(strip d).isEmpty) = [] → infer_group_date ds = [])
    ∧ ((∃ v ∈ ds.filter (fun d => !(strip d).isEmpty),
          2 ≤ (ds.filter (fun d => !(strip d).isEmpty)).count v) →
        infer_group_date ds ∈ ds.filter (fun d => !(strip d).isEmpty)
        ∧ 2 ≤ (ds.filter (fun d => !(strip d).isEmpty)).count (infer_group_date ds)
        ∧ ∀ w ∈ ds.filter (fun d => !(strip d).isEmpty),
            (ds.filter (fun d => !(strip d).isEmpty)).count w
              ≤ (ds.filter (fun d => !(strip d).isEmpty)).count (infer_group_date ds))
    ∧ ((∀ v ∈ ds.filter (fun d => !(strip d).isEmpty),
          (ds.filter (fun d => !(strip d).isEmpty)).count v ≤ 1) →
        (extract_years_from_strings (ds.filter (fun d => !(strip d).isEmpty)) = [] →
          infer_group_date ds = (ds.filter (fun d => !(strip d).isEmpty)).headD [])
        ∧ (∀ y : Nat,
            (extract_years_from_strings (ds.filter (fun d => !(strip d).isEmpty))).min?
              = some y →
            (extract_years_from_strings (ds.filter (fun d => !(strip d).isEmpty))).max?
              = some y →
            infer_group_date ds = (Nat.repr y).data)
        ∧ (∀ y z : Nat,
            (extract_years_from_strings (ds.filter (fun d => !(strip d).isEmpty))).min?
              = some y →
            (extract_years_from_strings (ds.filter (fun d => !(strip d).isEmpty))).max?
              = some z →
            ¬(y = z) →
            infer_group_date ds
              = (Nat.repr y).data ++ ('-' :: (Nat.repr z).data))) := by
  refine ⟨?_, ?_, ?_⟩
  · intro h
    simp [infer_group_date, h]
  · rintro ⟨v, hvmem, hc⟩
    have hne : ds.filter (fun d => !(strip d).isEmpty) ≠ [] := by
      intro h0
      rw [h0] at hvmem
      cases hvmem
    have hmc := firstMostCommon_spec _ hne
    have hgt : 1 < (firstMostCommon (ds.filter (fun d => !(strip d).isEmpty))).2 := by
      have h1 := hmc.2.2 v hvmem
      omega
    have hinfer : infer_group_date ds
        = (firstMostCommon (ds.filter (fun d => !(strip d).isEmpty))).1 := by
      unfold infer_group_date
      dsimp only
      rw [if_neg (fun hh => hne (List.isEmpty_iff.mp hh)), if_pos hgt]
    rw [hinfer]
    refine ⟨hmc.1, ?_, ?_⟩
    · rw [hmc.2.1]
      omega
    · intro w hw
      rw [hmc.2.1]
      exact hmc.2.2 w hw
  · intro hall
    by_cases hnil : ds.filter (fun d => !(strip d).isEmpty) = []
    · have hinf : infer_group_date ds = [] := by simp [infer_group_date, hnil]
      refine ⟨?_, ?_, ?_⟩
      · intro h0
        rw [hinf, hnil]
        rfl
      · intro y hy hz
        rw [hnil] at hy
        simp [extract_years_from_strings] at hy
      · intro y z hy hz hyz
        rw [hnil] at hy
        simp [extract_years_from_strings] at hy
    · have hmc := firstMostCommon_spec _ hnil
      have hle : ¬(1 < (firstMostCommon (ds.filter (fun d => !(strip d).isEmpty))).2) := by
        have h1 := hall _ hmc.1
        rw [hmc.2.1] at h1
        omega
      have hbody : infer_group_date ds
          = (match extract_years_from_strings (ds.filter (fun d => !(strip d).isEmpty)) with
             | [] => (ds.filter (fun d => !(strip d).isEmpty)).headD []
             | y :: ys =>
               if ys.foldl min y = ys.foldl max y then (Nat.repr (ys.foldl min y)).data
               else (Nat.repr (ys.foldl min y)).data
                 ++ ('-' :: (Nat.repr (ys.foldl max y)).data)) := by
        unfold infer_group_date
        dsimp only
        rw [if_neg (fun hh => hnil (List.isEmpty_iff.mp hh)), if_neg hle]
      cases hys : extract_years_from_strings (ds.filter (fun d => !(strip d).isEmpty)) with
      | nil =>
        rw [hys] at hbody
        refine ⟨fun h0 => hbody, ?_, ?_⟩
        · intro y hy hz
          simp [List.min?] at hy
        · intro y z hy hz hyz
          simp [List.min?] at hy
      | cons y0 ys0 =>
        rw [hys] at hbody
        refine ⟨?_, ?_, ?_⟩
        · intro hcontra
          simp at hcontra
        · intro y hy hz
          have hy2 : ys0.foldl min y0 = y := by
            have h0 : (y0 :: ys0).min? = some (ys0.foldl min y0) := rfl
            rw [h0] at hy
            exact Option.some.inj hy
          have hz2 : ys0.foldl max y0 = y := by
            have h0 : (y0 :: ys0).max? = some (ys0.foldl max y0) := rfl
            rw [h0] at hz
            exact Option.some.inj hz
          rw [hbody]
          dsimp only
          rw [if_pos (by rw [hy2, hz2]), hy2]
        · intro y z hy hz hyz
          have hy2 : ys0.foldl min y0 = y := by
            have h0 : (y0 :: ys0).min? = some (ys0.foldl min y0) := rfl
            rw [h0] at hy
            exact Option.some.inj hy
          have hz2 : ys0.foldl max y0 = z := by
            have h0 : (y0 :: ys0).max? = some (ys0.foldl max y0) := rfl
            rw [h0] at hz
            exact Option.some.inj hz
          rw [hbody]
          dsimp only
          rw [if_neg (by rw [hy2, hz2]; exact hyz), hy2, hz2]

/-- C1 witness: two singleton dates with distinct years give the year
range. -/
theorem claim_C1_witness :
    infer_group_date ["1999-01-01".data, "2005-03-01".data] = "1999-2005".data := by
  have h := (claim_C1_infer_group_date ["1999-01-01".data, "2005-03-01".data]).2.2
  exact ((h (by decide)).2.2 1999 2005 (by decide) (by decide) (by decide)).trans (by decide)

/-- C3 (code bug, evaluated): on the spec's example description,
`convert_metadata.py`'s `ensure_description_parens` returns its input
unchanged — line 46 rebuilds the match groups without the parentheses its
own docstring promises — while `convert.py`'s version of the same function
produces the parenthesized form the claim describes. -/
theorem claim_C3_eval :
    ensure_description_parens_cm "Item is a jpg file relating to trip".data
        = "Item is a jpg file relating to trip".data
    ∧ ensure_description_parens "Item is a jpg file relating to trip".data
        = "Item is a (jpg) file relating to trip".data :=
  ⟨by decide, by decide⟩

/-- C6 (code bug, evaluated): with a non-numeric `layerCount` and both an
extension and a label present, `process_layer_count` reaches `src/convert.py`
line 109, whose replacement f-string contains a bare unmatched closing brace
and is not valid Python; the modelled function therefore has no value on
that branch. -/
theorem claim_C6_eval :
    process_layer_count "x".data "jpg".data "My Trip".data "a.jpg".data = none := by
  decide

/-- C7: on a digit-only `layerCount` of value `n`, `process_layer_count`
reports `n + 1` layers, pluralized by the pre-increment value `n` being
greater than one. -/
theorem claim_C7_layer_count (lc ext title fn : List Char)
    (h1 : lc ≠ []) (h2 : ∀ c ∈ lc, c.isDigit = true) :
    process_layer_count lc ext title fn =
      some ("Item is a Photoshop file with ".data
        ++ (Nat.repr (lc.foldl (fun a c => 10 * a + (c.toNat - '0'.toNat)) 0 + 1)).data
        ++ (if 1 < lc.foldl (fun a c => 10 * a + (c.toNat - '0'.toNat)) 0
            then " layers.".data else " layer.".data)) := by
  unfold process_layer_count
  have hie : lc.isEmpty = false := by
    cases lc
    · exact absurd rfl h1
    · rfl
  have hall : lc.all Char.isDigit = true := List.all_eq_true.mpr h2
  rw [hie, hall]
  rfl

/-- C7 witness: the spec's two examples, singular `"2 layer."` for input
`"1"` and plural `"6 layers."` for input `"5"`. -/
theorem claim_C7_witness :
    process_layer_count "1".data "psd".data [] "x.psd".data
        = some "Item is a Photoshop file with 2 layer.".data
    ∧ process_layer_count "5".data "psd".data [] "x.psd".data
        = some "Item is a Photoshop file with 6 layers.".data :=
  ⟨(claim_C7_layer_count "1".data "psd".data [] "x.psd".data (by decide)
      (by decide)).trans (by decide),
   (claim_C7_layer_count "5".data "psd".data [] "x.psd".data (by decide)
      (by decide)).trans (by decide)⟩

/-- C8: the rights filler's per-row derivation returns empty start and end
dates for an empty `dc.date`; for a date with a leading whitespace token it
returns that token as `start_date` and, when the token's first four
characters parse as an integer `y`, the end date `y + 100` followed by a
hyphen and the token from index 5 on; when they do not parse, the
computation raises (no value). -/
theorem claim_C8_rights (date : List Char) :
    (date = [] → rights_dates date = some ([], []))
    ∧ (∀ tok rest, pySplitWs date = tok :: rest →
        (∀ y : Int, pyInt? (tok.take 4) = some y →
          rights_dates date = some (tok, (Int.repr (y + 100)).data ++ ('-' :: tok.drop 5)))
        ∧ (pyInt? (tok.take 4) = none → rights_dates date = none)) := by
  constructor
  · intro h
    subst h
    rfl
  · intro tok rest hsplit
    have hne : date.isEmpty = false := by
      cases date with
      | nil => simp [pySplitWs, splitWsAux] at hsplit
      | cons c cs => rfl
    constructor
    · intro y hy
      unfold rights_dates
      rw [hne]
      simp only [Bool.false_eq_true, if_false]
      rw [hsplit]
      dsimp only
      rw [hy]
    · intro hy
      unfold rights_dates
      rw [hne]
      simp only [Bool.false_eq_true, if_false]
      rw [hsplit]
      dsimp only
      rw [hy]

/-- C8 witness: `"2008-06-20 10:00"` gives start `"2008-06-20"` and end
`"2108-06-20"`. -/
theorem claim_C8_witness :
    pySplitWs "2008-06-20 10:00".data = "2008-06-20".data :: ["10:00".data]
    ∧ pyInt? (("2008-06-20".data : List Char).take 4) = some 2008
    ∧ rights_dates "2008-06-20 10:00".data
        = some ("2008-06-20".data, "2108-06-20".data) := by
  refine ⟨by decide, by decide, ?_⟩
  exact (((claim_C8_rights "2008-06-20 10:00".data).2 "2008-06-20".data
    ["10:00".data] (by decide)).1 2008 (by decide)).trans (by decide)

end DP
